import Mathlib

/-!
Verification of the kremis graph engine core (crates/kremis-core).

The Rust data structures are shallowly embedded as Lean definitions:
BTreeMap is modelled as an association list kept sorted by key (the
operations assume but do not require sortedness; theorems that need the
BTreeMap key-uniqueness/ordering invariant take it as a hypothesis),
u64 / i64 arithmetic is modelled on Nat / Int with explicit saturation
at the type bounds, and loops are modelled by fuel-indexed structural
recursion with fuel chosen large enough that it is never exhausted on
the states the source can reach.
-/

namespace Kremis

/-! ## Machine-integer saturation bounds -/

/-- Largest value of a Rust u64. -/
def U64MAX : Nat := 2 ^ 64 - 1

/-- Largest value of a Rust i64. -/
def I64MAX : Int := 2 ^ 63 - 1

/-- Smallest value of a Rust i64. -/
def I64MIN : Int := -(2 ^ 63)

/-- Rust u64::saturating_add on Nat. -/
def satAddU64 (a b : Nat) : Nat := min (a + b) U64MAX

/-- Rust u64::saturating_mul on Nat. -/
def satMulU64 (a b : Nat) : Nat := min (a * b) U64MAX

/-- Rust i64::saturating_add on Int. -/
def satAddI64 (a b : Int) : Int := max I64MIN (min (a + b) I64MAX)

/-- Rust i64::saturating_sub on Int. -/
def satSubI64 (a b : Int) : Int := max I64MIN (min (a - b) I64MAX)

/-! ## Sorted association lists (model of Rust BTreeMap)

A BTreeMap is modelled as a `List (K × V)` whose keys are strictly
increasing.  `getA` is BTreeMap::get, `insertA` is BTreeMap::insert
(replace on equal key), `removeA` is BTreeMap::remove.  On a sorted
list these have exactly the BTreeMap semantics; `getA` and `removeA`
act on the first occurrence of the key, which is the only occurrence
when the list is sorted. -/

variable {K : Type} {V : Type}

/-- BTreeMap::get on an association list: first binding of the key. -/
def getA [DecidableEq K] (k : K) : List (K × V) → Option V
  | [] => none
  | (k2, v) :: rest => if k = k2 then some v else getA k rest

/-- BTreeMap::insert on a sorted association list: insert in key order,
replacing the binding when the key is already present. -/
def insertA [LinearOrder K] (k : K) (v : V) : List (K × V) → List (K × V)
  | [] => [(k, v)]
  | (k2, v2) :: rest =>
    if k < k2 then (k, v) :: (k2, v2) :: rest
    else if k = k2 then (k, v) :: rest
    else (k2, v2) :: insertA k v rest

/-- BTreeMap::remove on an association list: drop the first binding of the key. -/
def removeA [DecidableEq K] (k : K) : List (K × V) → List (K × V)
  | [] => []
  | (k2, v) :: rest => if k = k2 then rest else (k2, v) :: removeA k rest

/-- Keys of an association list, in list order. -/
def keysOf (l : List (K × V)) : List K := l.map Prod.fst

/-- Well-formedness of the BTreeMap model: keys strictly increasing. -/
def SortedKeys [LinearOrder K] (l : List (K × V)) : Prop :=
  List.Pairwise (fun a b => a < b) (keysOf l)

end Kremis

namespace Kremis

/-! ## Primitives

Modelled from the spec: the primitives module of the repository
(NodeId, EntityId, Node, EdgeWeight, Artifact, MAX_TRAVERSAL_DEPTH) is
not under src/; these definitions follow spec sections 2 and 3.
NodeId and EntityId are u64 newtypes ordered numerically, EdgeWeight is
a signed 64-bit integer saturating on increment, Artifact is a node
path plus an edge subgraph. -/

/-- Modelled from the spec: NodeId, an internal monotonically assigned
unsigned 64-bit identifier (represented as Nat). -/
abbrev NodeId := Nat

/-- Modelled from the spec: EntityId, an external unsigned 64-bit
identifier (represented as Nat). -/
abbrev EntityId := Nat

/-- Modelled from the spec: a Node is an id paired with its entity. -/
structure Node where
  id : NodeId
  entity : EntityId
  deriving DecidableEq

/-- Modelled from the spec: EdgeWeight, a signed 64-bit integer
(represented as Int; all mutation paths saturate within i64 bounds). -/
abbrev EdgeWeight := Int

/-- Modelled from the spec: EdgeWeight increment saturates at i64::MAX. -/
def EdgeWeight.increment (w : EdgeWeight) : EdgeWeight := satAddI64 w 1

/-- Modelled from the spec: Artifact, the uniform query-result container
holding a node path and an edge subgraph. -/
structure Artifact where
  path : List NodeId
  subgraph : List (NodeId × NodeId × EdgeWeight)
  deriving DecidableEq

/-- Artifact with both a path and a subgraph. -/
def Artifact.with_subgraph (p : List NodeId) (s : List (NodeId × NodeId × EdgeWeight)) :
    Artifact := ⟨p, s⟩

/-- Artifact with only a path (empty subgraph). -/
def Artifact.with_path (p : List NodeId) : Artifact := ⟨p, []⟩

/-- Modelled from the spec: the fixed maximum traversal depth bound, a
named constant shared by all traversal entry points.  Its numeric value
is not observable in src/; the theorems below that mention it do not
depend on the particular value. -/
def MAX_TRAVERSAL_DEPTH : Nat := 10

/-! ## Graph (src/crates/kremis-core/src/graph.rs) -/

/-- The Graph structure: node table, adjacency lists, entity index and
the next-NodeId counter (graph.rs, struct Graph). -/
structure Graph where
  nodes : List (NodeId × Node)
  edges : List (NodeId × List (NodeId × EdgeWeight))
  entity_index : List (EntityId × NodeId)
  next_node_id : Nat
  deriving DecidableEq

/-- Graph::new, the empty graph. -/
def Graph.new : Graph := ⟨[], [], [], 0⟩

/-- Graph::contains_node. -/
def Graph.contains_node (g : Graph) (id : NodeId) : Bool :=
  (getA id g.nodes).isSome

/-- GraphStore::lookup. -/
def Graph.lookup (g : Graph) (id : NodeId) : Option Node :=
  getA id g.nodes

/-- GraphStore::get_node_by_entity. -/
def Graph.get_node_by_entity (g : Graph) (entity : EntityId) : Option NodeId :=
  getA entity g.entity_index

/-- GraphStore::get_edge. -/
def Graph.get_edge (g : Graph) (fromN toN : NodeId) : Option EdgeWeight :=
  (getA fromN g.edges).bind (fun targets => getA toN targets)

/-- GraphStore::neighbors: the adjacency list of a node, ascending by
target NodeId (empty when the node has no outgoing edges). -/
def Graph.neighbors (g : Graph) (node : NodeId) : List (NodeId × EdgeWeight) :=
  (getA node g.edges).getD []

/-- GraphStore::node_count. -/
def Graph.node_count (g : Graph) : Nat := g.nodes.length

/-- GraphStore::insert_node: return the existing NodeId when the entity
is already mapped, otherwise allocate the next NodeId (saturating u64
counter) and register the node in the node table and the entity index. -/
def Graph.insert_node (g : Graph) (entity : EntityId) : NodeId × Graph :=
  match getA entity g.entity_index with
  | some node_id => (node_id, g)
  | none =>
    let node_id : NodeId := g.next_node_id
    (node_id,
      { g with
        next_node_id := satAddU64 g.next_node_id 1
        nodes := insertA node_id ⟨node_id, entity⟩ g.nodes
        entity_index := insertA entity node_id g.entity_index })

/-- GraphStore::insert_edge: silent no-op unless both endpoints are in
the node table; otherwise replace the weight of the edge. -/
def Graph.insert_edge (g : Graph) (fromN toN : NodeId) (weight : EdgeWeight) : Graph :=
  if !g.contains_node fromN || !g.contains_node toN then g
  else
    let targets := (getA fromN g.edges).getD []
    { g with edges := insertA fromN (insertA toN weight targets) g.edges }

/-- GraphStore::increment_edge: fetch (or default) the adjacency list of
`fromN`, saturating-increment the current weight (or 0) of the edge to
`to`, and store it back.  Note the source performs no node-existence
check. -/
def Graph.increment_edge (g : Graph) (fromN toN : NodeId) : Graph :=
  let targets := (getA fromN g.edges).getD []
  let current := (getA toN targets).getD 0
  { g with edges := insertA fromN (insertA toN current.increment targets) g.edges }

/-- Total number of adjacency-list entries; used only to size loop fuel. -/
def Graph.edgeEntryCount (g : Graph) : Nat :=
  (g.edges.map (fun p => p.2.length)).sum

end Kremis

namespace Kremis

/-! ## BFS traversal (graph.rs, Graph::traverse / Graph::traverse_filtered)

The Rust while-loop over the BFS queue is modelled by structural
recursion on a fuel argument.  One unit of fuel is spent per queue pop;
every push into the queue is paired with a fresh insertion into the
visited set, whose elements all come from the adjacency lists (plus the
start node), so `edgeEntryCount + 2` units of fuel are never exhausted.
On fuel exhaustion the accumulated path and subgraph are returned,
which never happens with that fuel. -/

/-- The inner for-loop of Graph::traverse_filtered: process the
neighbor list of `current`, recording each edge of weight at least
`min_weight` and enqueueing targets not yet visited.  Returns the
updated queue, visited set and subgraph accumulator. -/
def stepFiltered (min_weight : EdgeWeight) (current : NodeId) (cd : Nat) :
    List (NodeId × EdgeWeight) → List (NodeId × Nat) → List NodeId →
    List (NodeId × NodeId × EdgeWeight) →
    List (NodeId × Nat) × List NodeId × List (NodeId × NodeId × EdgeWeight)
  | [], queue, visited, subgraph => (queue, visited, subgraph)
  | (nb, w) :: rest, queue, visited, subgraph =>
    if min_weight ≤ w then
      let subgraph := subgraph ++ [(current, nb, w)]
      if nb ∈ visited then stepFiltered min_weight current cd rest queue visited subgraph
      else stepFiltered min_weight current cd rest
        (queue ++ [(nb, cd + 1)]) (nb :: visited) subgraph
    else stepFiltered min_weight current cd rest queue visited subgraph

/-- The while-loop of Graph::traverse_filtered. -/
def bfsFilteredLoop (g : Graph) (min_weight : EdgeWeight) (depth : Nat) :
    Nat → List (NodeId × Nat) → List NodeId → List NodeId →
    List (NodeId × NodeId × EdgeWeight) →
    List NodeId × List (NodeId × NodeId × EdgeWeight)
  | 0, _, _, path, subgraph => (path, subgraph)
  | _ + 1, [], _, path, subgraph => (path, subgraph)
  | fuel + 1, (current, cd) :: queue, visited, path, subgraph =>
    let path := path ++ [current]
    if depth ≤ cd then
      bfsFilteredLoop g min_weight depth fuel queue visited path subgraph
    else
      match stepFiltered min_weight current cd (g.neighbors current) queue visited subgraph with
      | (queue2, visited2, subgraph2) =>
        bfsFilteredLoop g min_weight depth fuel queue2 visited2 path subgraph2

/-- GraphStore::traverse_filtered: clamp the depth to
MAX_TRAVERSAL_DEPTH, return none when the start node is missing,
otherwise run the BFS from `(start, 0)` with `start` pre-visited. -/
def Graph.traverse_filtered (g : Graph) (start : NodeId) (depth : Nat)
    (min_weight : EdgeWeight) : Option Artifact :=
  let depth := min depth MAX_TRAVERSAL_DEPTH
  if !g.contains_node start then none
  else
    match bfsFilteredLoop g min_weight depth (g.edgeEntryCount + 2)
      [(start, 0)] [start] [] [] with
    | (path, subgraph) => some (Artifact.with_subgraph path subgraph)

/-- The inner for-loop of Graph::traverse: record every examined edge
and enqueue targets not yet visited. -/
def stepAll (current : NodeId) (cd : Nat) :
    List (NodeId × EdgeWeight) → List (NodeId × Nat) → List NodeId →
    List (NodeId × NodeId × EdgeWeight) →
    List (NodeId × Nat) × List NodeId × List (NodeId × NodeId × EdgeWeight)
  | [], queue, visited, subgraph => (queue, visited, subgraph)
  | (nb, w) :: rest, queue, visited, subgraph =>
    let subgraph := subgraph ++ [(current, nb, w)]
    if nb ∈ visited then stepAll current cd rest queue visited subgraph
    else stepAll current cd rest (queue ++ [(nb, cd + 1)]) (nb :: visited) subgraph

/-- The while-loop of Graph::traverse. -/
def bfsLoop (g : Graph) (depth : Nat) :
    Nat → List (NodeId × Nat) → List NodeId → List NodeId →
    List (NodeId × NodeId × EdgeWeight) →
    List NodeId × List (NodeId × NodeId × EdgeWeight)
  | 0, _, _, path, subgraph => (path, subgraph)
  | _ + 1, [], _, path, subgraph => (path, subgraph)
  | fuel + 1, (current, cd) :: queue, visited, path, subgraph =>
    let path := path ++ [current]
    if depth ≤ cd then
      bfsLoop g depth fuel queue visited path subgraph
    else
      match stepAll current cd (g.neighbors current) queue visited subgraph with
      | (queue2, visited2, subgraph2) =>
        bfsLoop g depth fuel queue2 visited2 path subgraph2

/-- GraphStore::traverse: breadth-first from `start`, depth clamped to
MAX_TRAVERSAL_DEPTH; none only when the start node is missing. -/
def Graph.traverse (g : Graph) (start : NodeId) (depth : Nat) : Option Artifact :=
  let depth := min depth MAX_TRAVERSAL_DEPTH
  if !g.contains_node start then none
  else
    match bfsLoop g depth (g.edgeEntryCount + 2) [(start, 0)] [start] [] [] with
    | (path, subgraph) => some (Artifact.with_subgraph path subgraph)

/-- GraphStore::related_subgraph: same as traverse. -/
def Graph.related_subgraph (g : Graph) (start : NodeId) (depth : Nat) : Option Artifact :=
  g.traverse start depth

/-! ## Intersection (graph.rs, Graph::intersect) -/

/-- GraphStore::intersect: intersection (as a sorted set) of the
out-neighbor sets of all input nodes; empty for empty input, with an
early return when the first node has no neighbors. -/
def Graph.intersect (g : Graph) (nodes : List NodeId) : List NodeId :=
  match nodes with
  | [] => []
  | first :: rest =>
    let first_neighbors := (g.neighbors first).map Prod.fst
    if first_neighbors = [] then []
    else rest.foldl
      (fun result node => result.filter (fun n => n ∈ (g.neighbors node).map Prod.fst))
      first_neighbors

/-! ## Strongest path (graph.rs, Graph::strongest_path)

Dijkstra with edge cost i64::MAX - max(weight, 0) under i64 saturating
arithmetic.  The main loop is modelled with fuel; each iteration either
ends the loop or moves a node of the distance map into the visited set,
and the distance map only ever holds the start node and targets of
adjacency entries, so `edgeEntryCount + 2` units are never exhausted.
Likewise the path reconstruction walks the predecessor map, which holds
no cycles, so fuel `prev.length + 1` is never exhausted. -/

/-- Rust Iterator::min_by_key over (node, dist) pairs: first pair with
minimal distance, earlier pairs winning ties. -/
def firstMinByDist (l : List (NodeId × Int)) : Option NodeId :=
  match l with
  | [] => none
  | p :: rest => some ((rest.foldl (fun acc x => if x.2 < acc.2 then x else acc) p).1)

/-- The unvisited node of the distance map with minimal distance
(dist.iter().filter(not visited).min_by_key). -/
def minUnvisited (dist : List (NodeId × Int)) (visited : List NodeId) : Option NodeId :=
  firstMinByDist (dist.filter (fun p => p.1 ∉ visited))

/-- The neighbor-relaxation for-loop of Graph::strongest_path. -/
def relaxAll (current : NodeId) (cd : Int) (visited : List NodeId) :
    List (NodeId × EdgeWeight) → List (NodeId × Int) → List (NodeId × NodeId) →
    List (NodeId × Int) × List (NodeId × NodeId)
  | [], dist, prev => (dist, prev)
  | (nb, w) :: rest, dist, prev =>
    if nb ∈ visited then relaxAll current cd visited rest dist prev
    else
      let clamped : Int := max w 0
      let edge_cost := satSubI64 I64MAX clamped
      let new_dist := satAddI64 cd edge_cost
      let improved :=
        match getA nb dist with
        | none => true
        | some d => decide (new_dist < d)
      if improved then
        relaxAll current cd visited rest (insertA nb new_dist dist) (insertA nb current prev)
      else relaxAll current cd visited rest dist prev

/-- The main Dijkstra loop of Graph::strongest_path. -/
def dijkstraLoop (g : Graph) (endN : NodeId) :
    Nat → List (NodeId × Int) → List (NodeId × NodeId) → List NodeId →
    List (NodeId × Int) × List (NodeId × NodeId)
  | 0, dist, prev, _ => (dist, prev)
  | fuel + 1, dist, prev, visited =>
    match minUnvisited dist visited with
    | none => (dist, prev)
    | some current =>
      if current = endN then (dist, prev)
      else
        let visited2 := current :: visited
        let cd := (getA current dist).getD 0
        match relaxAll current cd visited2 (g.neighbors current) dist prev with
        | (dist2, prev2) => dijkstraLoop g endN fuel dist2 prev2 visited2

/-- The path-reconstruction while-loop of Graph::strongest_path:
follow predecessor links from `current` back to `start`, accumulating
the final path front-first. -/
def buildPath (start : NodeId) (prev : List (NodeId × NodeId)) :
    Nat → NodeId → List NodeId → Option (List NodeId)
  | 0, _, _ => none
  | fuel + 1, current, acc =>
    if current = start then some (current :: acc)
    else
      match getA current prev with
      | none => none
      | some p => buildPath start prev fuel p (current :: acc)

/-- GraphStore::strongest_path: none when either endpoint is missing,
the trivial path when start = end, otherwise Dijkstra with cost
i64::MAX - max(weight, 0) followed by path reconstruction. -/
def Graph.strongest_path (g : Graph) (start endN : NodeId) : Option (List NodeId) :=
  if !g.contains_node start || !g.contains_node endN then none
  else if start = endN then some [start]
  else
    match dijkstraLoop g endN (g.edgeEntryCount + 2) [(start, 0)] [] [] with
    | (_, prev) =>
      if (getA endN prev).isNone then none
      else buildPath start prev (prev.length + 1) endN []

end Kremis

namespace Kremis

/-! ## DFS traversal (graph.rs, Graph::traverse_dfs)

dfs_recursive(current, current_depth, max_depth, ...) is modelled with
the fuel `max_depth - current_depth + 1`: fuel 0 corresponds to
current_depth > max_depth (the guard that can only fire there), and
fuel 1 corresponds to current_depth = max_depth, where the node is
visited and pushed but its neighbors are not walked. -/

/-- Accumulator state of dfs_recursive. -/
structure DfsState where
  visited : List NodeId
  path : List NodeId
  subgraph : List (NodeId × NodeId × EdgeWeight)
  deriving DecidableEq

/-- The neighbor for-loop of dfs_recursive: record every examined edge
and recurse (through `rec`) into unvisited targets. -/
def dfsFold (rec : NodeId → DfsState → DfsState) (current : NodeId) :
    List (NodeId × EdgeWeight) → DfsState → DfsState
  | [], st => st
  | (nb, w) :: rest, st =>
    let st2 := { st with subgraph := st.subgraph ++ [(current, nb, w)] }
    if nb ∈ st2.visited then dfsFold rec current rest st2
    else dfsFold rec current rest (rec nb st2)

/-- dfs_recursive with fuel `max_depth - current_depth + 1`. -/
def dfsGo (g : Graph) : Nat → NodeId → DfsState → DfsState
  | 0, _, st => st
  | fuel + 1, current, st =>
    if current ∈ st.visited then st
    else
      let st2 := { st with
        visited := current :: st.visited
        path := st.path ++ [current] }
      if fuel = 0 then st2
      else dfsFold (dfsGo g fuel) current (g.neighbors current) st2

/-- Graph::traverse_dfs: depth-first from `start`, depth clamped to
MAX_TRAVERSAL_DEPTH; none only when the start node is missing. -/
def Graph.traverse_dfs (g : Graph) (start : NodeId) (depth : Nat) : Option Artifact :=
  if !g.contains_node start then none
  else
    let bounded_depth := min depth MAX_TRAVERSAL_DEPTH
    let st := dfsGo g (bounded_depth + 1) start ⟨[], [], []⟩
    some (Artifact.with_subgraph st.path st.subgraph)

/-! ## LRU cache (src/crates/kremis-core/src/cache.rs) -/

/-- Default maximum cache size (cache.rs, DEFAULT_CACHE_SIZE). -/
def DEFAULT_CACHE_SIZE : Nat := 1000

/-- Default eviction batch size (cache.rs, DEFAULT_EVICTION_BATCH). -/
def DEFAULT_EVICTION_BATCH : Nat := 100

/-- An entry of the LRU cache (cache.rs, CacheEntry). -/
structure CacheEntry (V : Type) where
  value : V
  last_access : Nat
  access_count : Nat
  deriving DecidableEq

/-- CacheEntry::new. -/
def CacheEntry.new (value : V) (timestamp : Nat) : CacheEntry V :=
  ⟨value, timestamp, 1⟩

/-- CacheEntry::touch: refresh the timestamp and bump the access count. -/
def CacheEntry.touch (e : CacheEntry V) (timestamp : Nat) : CacheEntry V :=
  { e with last_access := timestamp, access_count := satAddU64 e.access_count 1 }

/-- The LRU cache (cache.rs, LruCache): entries keyed by an ordered key,
capacity, eviction batch size, logical clock and hit/miss counters. -/
structure LruCache (K V : Type) where
  entries : List (K × CacheEntry V)
  max_size : Nat
  eviction_batch : Nat
  logical_clock : Nat
  hits : Nat
  misses : Nat

/-- LruCache::new: capacity clamped to at least 1. -/
def LruCache.new (K V : Type) (max_size : Nat) : LruCache K V :=
  ⟨[], max max_size 1, DEFAULT_EVICTION_BATCH, 0, 0, 0⟩

/-- LruCache::with_eviction_batch: batch size clamped to at least 1. -/
def LruCache.with_eviction_batch (c : LruCache K V) (batch_size : Nat) : LruCache K V :=
  { c with eviction_batch := max batch_size 1 }

/-- LruCache::get: tick the clock; on a hit touch the entry and count a
hit, on a miss count a miss.  Returns the looked-up value paired with
the updated cache. -/
def LruCache.get [LinearOrder K] (c : LruCache K V) (k : K) :
    Option V × LruCache K V :=
  let clock := satAddU64 c.logical_clock 1
  match getA k c.entries with
  | some e =>
    (some e.value,
      { c with
        logical_clock := clock
        entries := insertA k (e.touch clock) c.entries
        hits := satAddU64 c.hits 1 })
  | none =>
    (none, { c with logical_clock := clock, misses := satAddU64 c.misses 1 })

/-- LruCache::peek: read the stored value without any state change (the
source takes the cache by immutable reference). -/
def LruCache.peek [DecidableEq K] (c : LruCache K V) (k : K) : Option V :=
  (getA k c.entries).map (fun e => e.value)

/-- Grouping step of LruCache::evict: append the key to the group of its
last-access time in the by_access BTreeMap (groups keep push order). -/
def pushGroup [LinearOrder K] (t : Nat) (k : K) :
    List (Nat × List K) → List (Nat × List K)
  | [] => [(t, [k])]
  | (t2, ks) :: rest =>
    if t < t2 then (t, [k]) :: (t2, ks) :: rest
    else if t = t2 then (t2, ks ++ [k]) :: rest
    else (t2, ks) :: pushGroup t k rest

/-- The by_access map of LruCache::evict: entries grouped by
last_access, built by a fold over the entries in key order. -/
def buildByAccess [LinearOrder K] (entries : List (K × CacheEntry V)) :
    List (Nat × List K) :=
  entries.foldl (fun acc p => pushGroup p.2.last_access p.1 acc) []

/-- The order in which LruCache::evict walks keys: ascending
last-access group, and within a group the order keys were pushed. -/
def evictionOrder [LinearOrder K] (entries : List (K × CacheEntry V)) : List K :=
  ((buildByAccess entries).map Prod.snd).flatten

/-- LruCache::evict: remove the first min(eviction_batch, len) keys of
the eviction order.  The labelled-break double loop of the source
removes exactly the first to_evict keys of the flattened by_access
groups, which is what the take models. -/
def LruCache.evict [LinearOrder K] (c : LruCache K V) : LruCache K V :=
  if c.entries.isEmpty then c
  else
    let to_evict := min c.eviction_batch c.entries.length
    let doomed := (evictionOrder c.entries).take to_evict
    { c with entries := doomed.foldl (fun es k => removeA k es) c.entries }

/-- LruCache::insert: tick the clock; evict before inserting when the
cache is at capacity and the key is new; then update the existing entry
or insert a fresh one. -/
def LruCache.insert [LinearOrder K] (c : LruCache K V) (k : K) (v : V) :
    LruCache K V :=
  let clock := satAddU64 c.logical_clock 1
  let c2 :=
    if c.max_size ≤ c.entries.length ∧ (getA k c.entries).isNone then c.evict
    else c
  let entries :=
    match getA k c2.entries with
    | some e => insertA k ({ e with value := v }.touch clock) c2.entries
    | none => insertA k (CacheEntry.new v clock) c2.entries
  { c2 with logical_clock := clock, entries := entries }

/-- LruCache::remove: drop the binding, returning its value. -/
def LruCache.remove [DecidableEq K] (c : LruCache K V) (k : K) :
    Option V × LruCache K V :=
  ((getA k c.entries).map (fun e => e.value),
    { c with entries := removeA k c.entries })

/-- LruCache::clear: drop all entries, keeping clock and statistics. -/
def LruCache.clear (c : LruCache K V) : LruCache K V :=
  { c with entries := [] }

/-- LruCache::len. -/
def LruCache.len (c : LruCache K V) : Nat := c.entries.length

/-- LruCache::hit_rate_percent: floored integer percentage of hits among
all accesses, 0 when there were none; the saturating product is divided
by the total and the quotient cast to u8 (mod 256). -/
def LruCache.hit_rate_percent (c : LruCache K V) : Nat :=
  let total := satAddU64 c.hits c.misses
  if total = 0 then 0
  else (satMulU64 c.hits 100 / total) % 256

/-- Cache states reachable through the public cache operations. -/
inductive LruCache.Reached [LinearOrder K] : LruCache K V → Prop
  | new : ∀ n, Reached (LruCache.new K V n)
  | with_batch : ∀ c b, Reached c → Reached (LruCache.with_eviction_batch c b)
  | ins : ∀ c k v, Reached c → Reached (LruCache.insert c k v)
  | got : ∀ c k, Reached c → Reached (LruCache.get c k).2
  | rem : ∀ c k, Reached c → Reached (LruCache.remove c k).2
  | clr : ∀ c, Reached c → Reached (LruCache.clear c)

end Kremis

namespace Kremis

/-! ## Grounding (src/crates/kremis-core/src/grounding.rs)

The confidence module of the repository is not under src/; its types
are modelled from the spec, and the two scoring functions
compute_confidence / compute_path_confidence (an internal policy per
the design notes of the spec) are taken as parameters of verify_hypothesis,
so every theorem below holds for any scoring policy. -/

/-- Modelled from the spec: ConfidenceScore, an integer 0-100 score plus
internal evidence state (evidence-path length and edge count). -/
structure ConfidenceScore where
  score : Nat
  path_len : Nat
  edge_count : Nat
  deriving DecidableEq

/-- ConfidenceScore::new. -/
def ConfidenceScore.new (score path_len edge_count : Nat) : ConfidenceScore :=
  ⟨score, path_len, edge_count⟩

/-- ConfidenceScore::zero. -/
def ConfidenceScore.zero : ConfidenceScore := ⟨0, 0, 0⟩

/-- Modelled from the spec: the fixed verification threshold gating the
verified flag; its numeric value is not observable in src/ and no
theorem below depends on it. -/
def CONFIDENCE_THRESHOLD : Nat := 50

/-- ConfidenceScore::is_verified: the score clears the threshold. -/
def ConfidenceScore.is_verified (s : ConfidenceScore) : Bool :=
  decide (CONFIDENCE_THRESHOLD ≤ s.score)

/-- Modelled from the spec: the query shapes dispatched by
verify_hypothesis (grounding.rs matches exactly these seven). -/
inductive QueryType where
  | Lookup (entity : EntityId)
  | Traverse (start : NodeId) (depth : Nat)
  | TraverseFiltered (start : NodeId) (depth : Nat) (min_weight : EdgeWeight)
  | StrongestPath (start : NodeId) (endN : NodeId)
  | Intersect (nodes : List NodeId)
  | RelatedSubgraph (start : NodeId) (depth : Nat)
  | TraverseDfs (start : NodeId) (depth : Nat)
  deriving DecidableEq

/-- Modelled from the spec: a Query carries its QueryType. -/
structure Query where
  query_type : QueryType
  deriving DecidableEq

/-- Result of hypothesis verification (grounding.rs, GroundedResult). -/
structure GroundedResult where
  artifact : Option Artifact
  confidence : ConfidenceScore
  verified : Bool
  evidence_path : List NodeId
  deriving DecidableEq

/-- GroundedResult::unverified: no artifact, zero confidence, not
verified, empty evidence path. -/
def GroundedResult.unverified : GroundedResult :=
  ⟨none, ConfidenceScore.zero, false, []⟩

/-- GroundedResult::with_artifact: wrap an artifact with its confidence,
the threshold-gated verified flag, and the artifact path as evidence. -/
def GroundedResult.with_artifact (artifact : Artifact) (confidence : ConfidenceScore) :
    GroundedResult :=
  ⟨some artifact, confidence, confidence.is_verified, artifact.path⟩

/-- verify_hypothesis (grounding.rs): dispatch on the query type, run
the graph operation, and wrap a produced artifact with a confidence
score, or return the unverified result when nothing was produced.
`cc` and `cpc` stand for the compute_confidence and
compute_path_confidence scoring policies. -/
def verify_hypothesis (cc : Artifact → Graph → ConfidenceScore)
    (cpc : List NodeId → Graph → ConfidenceScore)
    (g : Graph) (q : Query) : GroundedResult :=
  match q.query_type with
  | .Lookup entity =>
    match g.get_node_by_entity entity with
    | some node_id =>
      GroundedResult.with_artifact (Artifact.with_path [node_id])
        (ConfidenceScore.new 100 0 1)
    | none => GroundedResult.unverified
  | .Traverse start depth =>
    match g.traverse start depth with
    | some artifact => GroundedResult.with_artifact artifact (cc artifact g)
    | none => GroundedResult.unverified
  | .TraverseFiltered start depth min_weight =>
    match g.traverse_filtered start depth min_weight with
    | some artifact => GroundedResult.with_artifact artifact (cc artifact g)
    | none => GroundedResult.unverified
  | .StrongestPath start endN =>
    match g.strongest_path start endN with
    | some path => GroundedResult.with_artifact (Artifact.with_path path) (cpc path g)
    | none => GroundedResult.unverified
  | .Intersect nodes =>
    let common := g.intersect nodes
    if common.isEmpty then GroundedResult.unverified
    else GroundedResult.with_artifact (Artifact.with_path common)
      (cc (Artifact.with_path common) g)
  | .RelatedSubgraph start depth =>
    match g.related_subgraph start depth with
    | some artifact => GroundedResult.with_artifact artifact (cc artifact g)
    | none => GroundedResult.unverified
  | .TraverseDfs start depth =>
    match g.traverse_dfs start depth with
    | some artifact => GroundedResult.with_artifact artifact (cc artifact g)
    | none => GroundedResult.unverified

/-- The underlying graph operation of a query produced no artifact
(missing node or entity, no path, or empty intersection). -/
def queryFails (g : Graph) (q : Query) : Prop :=
  match q.query_type with
  | .Lookup entity => g.get_node_by_entity entity = none
  | .Traverse start depth => g.traverse start depth = none
  | .TraverseFiltered start depth min_weight =>
    g.traverse_filtered start depth min_weight = none
  | .StrongestPath start endN => g.strongest_path start endN = none
  | .Intersect nodes => g.intersect nodes = []
  | .RelatedSubgraph start depth => g.related_subgraph start depth = none
  | .TraverseDfs start depth => g.traverse_dfs start depth = none

end Kremis

namespace Kremis

/-! ## Association-list lemmas -/

variable {K : Type} {V : Type}

theorem getA_insertA_self [LinearOrder K] (k : K) (v : V) (l : List (K × V)) :
    getA k (insertA k v l) = some v := by
  induction l with
  | nil => simp [insertA, getA]
  | cons p rest ih =>
    obtain ⟨k2, v2⟩ := p
    by_cases h1 : k < k2
    · simp [insertA, h1, getA]
    · by_cases h2 : k = k2
      · simp [insertA, h1, h2, getA]
      · simp [insertA, h1, h2, getA, ih]

theorem length_insertA_of_not_mem [LinearOrder K] (k : K) (v : V) (l : List (K × V))
    (h : k ∉ keysOf l) : (insertA k v l).length = l.length + 1 := by
  induction l with
  | nil => simp [insertA]
  | cons p rest ih =>
    obtain ⟨k2, v2⟩ := p
    simp only [keysOf, List.map_cons, List.mem_cons] at h
    push_neg at h
    by_cases h1 : k < k2
    · simp [insertA, h1]
    · simp only [insertA, if_neg h1, if_neg h.1, List.length_cons]
      rw [ih (by simpa [keysOf] using h.2)]

theorem keysOf_insertA_of_mem [LinearOrder K] (k : K) (v : V) (l : List (K × V))
    (hs : SortedKeys l) (h : k ∈ keysOf l) : keysOf (insertA k v l) = keysOf l := by
  induction l with
  | nil => simp [keysOf] at h
  | cons p rest ih =>
    obtain ⟨k2, v2⟩ := p
    simp only [keysOf, List.map_cons, List.mem_cons] at h
    simp only [SortedKeys, keysOf, List.map_cons, List.pairwise_cons] at hs
    rcases h with h | h
    · subst h
      simp [insertA, lt_irrefl, keysOf]
    · have hk2 : k2 < k := hs.1 k (by simpa [keysOf] using h)
      have h1 : ¬ k < k2 := not_lt_of_gt hk2
      have h2 : k ≠ k2 := ne_of_gt hk2
      simp only [insertA, if_neg h1, if_neg h2, keysOf, List.map_cons, List.cons.injEq, true_and]
      exact ih hs.2 (by simpa [keysOf] using h)

end Kremis

namespace Kremis

/-! ## Concrete graphs used by witnesses and counterexamples -/

/-- Chain graph: entities 1, 2, 3 as nodes 0, 1, 2 with edges 0→1 and
1→2 of weight 10 (the graph produced by insert_node 1/2/3 followed by
insert_edge 0 1 10 and insert_edge 1 2 10). -/
def chainGraph : Graph :=
  ⟨[(0, ⟨0, 1⟩), (1, ⟨1, 2⟩), (2, ⟨2, 3⟩)],
   [(0, [(1, 10)]), (1, [(2, 10)])],
   [(1, 0), (2, 1), (3, 2)], 3⟩

/-- Diamond graph: like chainGraph plus a direct low-weight edge 0→2 of
weight 1. -/
def diamondGraph : Graph :=
  ⟨[(0, ⟨0, 1⟩), (1, ⟨1, 2⟩), (2, ⟨2, 3⟩)],
   [(0, [(1, 10), (2, 1)]), (1, [(2, 10)])],
   [(1, 0), (2, 1), (3, 2)], 3⟩

/-! ## Claim C1 -/

/-- Claim C1, counterexample: on the empty graph, increment_edge 0 1
changes the graph even though neither endpoint exists, creating an
adjacency entry (and an edge of weight 1) for node 0, which is absent
from the node table.  The assertion of the claim that increment_edge
targeting a missing endpoint leaves the graph unchanged is false. -/
theorem c1_counterexample :
    Graph.new.contains_node 0 = false ∧
    Graph.new.contains_node 1 = false ∧
    Graph.new.increment_edge 0 1 ≠ Graph.new ∧
    (Graph.new.increment_edge 0 1).get_edge 0 1 = some 1 ∧
    (getA 0 (Graph.new.increment_edge 0 1).edges).isSome = true := by
  decide

/-- Claim C1 as amended: insert_edge with a missing endpoint is a
silent no-op, but increment_edge performs no endpoint check: for every
graph it creates or increments the edge, setting its weight to the
saturating increment of the current weight (or of 0 when the edge is
absent), even when an endpoint is not in the node table. -/
theorem c1_insert_edge_noop_increment_edge_unchecked :
    (∀ (g : Graph) (fromN toN : NodeId) (w : EdgeWeight),
      g.contains_node fromN = false ∨ g.contains_node toN = false →
      g.insert_edge fromN toN w = g) ∧
    (∀ (g : Graph) (fromN toN : NodeId),
      (g.increment_edge fromN toN).get_edge fromN toN =
        some (EdgeWeight.increment ((g.get_edge fromN toN).getD 0))) := by
  constructor
  · intro g fromN toN w h
    rcases h with h | h <;> simp [Graph.insert_edge, h]
  · intro g fromN toN
    unfold Graph.increment_edge Graph.get_edge
    cases hf : getA fromN g.edges with
    | none => simp [hf, getA_insertA_self, getA]
    | some targets => simp [hf, getA_insertA_self]

end Kremis

namespace Kremis

/-- Claim C1, witness: the no-op half of the amended claim applied to a
concrete missing endpoint on the empty graph. -/
theorem c1_witness :
    Graph.new.contains_node 0 = false ∧ Graph.new.insert_edge 0 1 5 = Graph.new :=
  ⟨by decide,
    c1_insert_edge_noop_increment_edge_unchecked.1 Graph.new 0 1 5 (Or.inl (by decide))⟩

/-! ## Claim C4 -/

/-- Claim C4, counterexample: on a graph that already contains entity 7
(one insert_node 7 applied to the empty graph), calling insert_node 7
twice returns the same NodeId both times but node_count increases by 0
overall, not by exactly 1 as the claim states for every graph. -/
theorem c4_counterexample :
    (((Graph.new.insert_node 7).2.insert_node 7).2.insert_node 7).1 =
      ((Graph.new.insert_node 7).2.insert_node 7).1 ∧
    ((((Graph.new.insert_node 7).2.insert_node 7).2.insert_node 7).2.node_count =
      (Graph.new.insert_node 7).2.node_count) ∧
    ¬ ((((Graph.new.insert_node 7).2.insert_node 7).2.insert_node 7).2.node_count =
      (Graph.new.insert_node 7).2.node_count + 1) := by
  decide

/-- Claim C4 as amended: for every graph whose node keys are below the
next-NodeId counter (an invariant of every graph the mutation API can
build), two insert_node calls for the same entity return the same
NodeId, the second call changes nothing, and node_count grows by
exactly 1 when the entity was not yet mapped — and by 0 when it was. -/
theorem c4_insert_node_idempotent (g : Graph) (e : EntityId)
    (hwf : ∀ p ∈ g.nodes, p.1 < g.next_node_id) :
    ((g.insert_node e).2.insert_node e).1 = (g.insert_node e).1 ∧
    ((g.insert_node e).2.insert_node e).2 = (g.insert_node e).2 ∧
    (getA e g.entity_index = none →
      (g.insert_node e).2.node_count = g.node_count + 1) ∧
    (getA e g.entity_index ≠ none → (g.insert_node e).2 = g) := by
  cases he : getA e g.entity_index with
  | some node_id =>
    refine ⟨?_, ?_, ?_, ?_⟩ <;> simp [Graph.insert_node, he]
  | none =>
    have hfresh : (g.next_node_id : NodeId) ∉ keysOf g.nodes := by
      intro hmem
      simp only [keysOf, List.mem_map] at hmem
      obtain ⟨p, hp, hpe⟩ := hmem
      exact absurd (hpe ▸ hwf p hp) (lt_irrefl _)
    refine ⟨?_, ?_, ?_, ?_⟩
    · simp [Graph.insert_node, he, getA_insertA_self]
    · simp [Graph.insert_node, he, getA_insertA_self]
    · intro _
      simp [Graph.insert_node, he, Graph.node_count,
        length_insertA_of_not_mem _ _ _ hfresh]
    · intro hcon
      exact absurd rfl hcon

/-- Claim C4, witness: the amended theorem applied to the empty graph
and entity 7 — the entity is fresh, so node_count grows from 0 to 1 and
the repeated call returns NodeId 0 again. -/
theorem c4_witness :
    (Graph.new.insert_node 7).2.node_count = Graph.new.node_count + 1 ∧
    ((Graph.new.insert_node 7).2.insert_node 7).1 = (Graph.new.insert_node 7).1 :=
  ⟨(c4_insert_node_idempotent Graph.new 7 (by decide)).2.2.1 (by decide),
   (c4_insert_node_idempotent Graph.new 7 (by decide)).1⟩

/-! ## Claim C5 -/

/-- Claim C5: for every graph, every start node present in it and every
depth above MAX_TRAVERSAL_DEPTH, traverse returns exactly the result of
traverse at MAX_TRAVERSAL_DEPTH — the same path and the same subgraph.
The proof only uses that both calls clamp the depth with min, so it is
independent of the value of the constant. -/
theorem c5_traverse_depth_clamped (g : Graph) (start : NodeId) (depth : Nat)
    (_hex : g.contains_node start = true) (hd : MAX_TRAVERSAL_DEPTH < depth) :
    g.traverse start depth = g.traverse start MAX_TRAVERSAL_DEPTH := by
  have hclamp : min depth MAX_TRAVERSAL_DEPTH = MAX_TRAVERSAL_DEPTH :=
    Nat.min_eq_right (Nat.le_of_lt hd)
  unfold Graph.traverse
  rw [hclamp, Nat.min_self]

/-- Claim C5, witness: on the chain graph, traverse from node 0 at
depth MAX_TRAVERSAL_DEPTH + 1 equals traverse at the bound. -/
theorem c5_witness :
    chainGraph.contains_node 0 = true ∧
    chainGraph.traverse 0 (MAX_TRAVERSAL_DEPTH + 1) =
      chainGraph.traverse 0 MAX_TRAVERSAL_DEPTH :=
  ⟨by decide,
    c5_traverse_depth_clamped chainGraph 0 (MAX_TRAVERSAL_DEPTH + 1) (by decide)
      (Nat.lt_succ_self _)⟩

end Kremis

namespace Kremis

variable {K : Type} {V : Type}

/-! ## Claim C9 -/

/-- Calling LruCache::peek as an operation: the source signature takes
the cache by immutable reference, so the cache after the call is
exactly the cache before it. -/
def LruCache.peekCall [DecidableEq K] (c : LruCache K V) (k : K) :
    Option V × LruCache K V := (c.peek k, c)

/-- Claim C9: peek is side-effect-free — the logical clock, the hit and
miss counters and every entry (hence every last_access and
access_count) are unchanged by a peek call — and it returns exactly the
value that get would return. -/
theorem c9_peek_side_effect_free [LinearOrder K] (c : LruCache K V) (k : K) :
    (c.peekCall k).2.logical_clock = c.logical_clock ∧
    (c.peekCall k).2.hits = c.hits ∧
    (c.peekCall k).2.misses = c.misses ∧
    (c.peekCall k).2.entries = c.entries ∧
    (c.peekCall k).1 = (c.get k).1 := by
  refine ⟨rfl, rfl, rfl, rfl, ?_⟩
  unfold LruCache.peekCall LruCache.peek LruCache.get
  cases getA k c.entries <;> simp

/-! ## Claim C8 -/

/-- Claim C8: whenever the underlying graph operation of a query
produces no artifact (missing entity or node, no path, or an empty
intersection), verify_hypothesis returns the unverified result — no
artifact, zero confidence, verified = false and an empty evidence
path — for every confidence-scoring policy.  It never fabricates an
evidence path for a failed query. -/
theorem c8_verify_hypothesis_unverified
    (cc : Artifact → Graph → ConfidenceScore)
    (cpc : List NodeId → Graph → ConfidenceScore)
    (g : Graph) (q : Query) (h : queryFails g q) :
    verify_hypothesis cc cpc g q = GroundedResult.unverified ∧
    (verify_hypothesis cc cpc g q).artifact = none ∧
    (verify_hypothesis cc cpc g q).confidence = ConfidenceScore.zero ∧
    (verify_hypothesis cc cpc g q).verified = false ∧
    (verify_hypothesis cc cpc g q).evidence_path = [] := by
  have hmain : verify_hypothesis cc cpc g q = GroundedResult.unverified := by
    obtain ⟨qt⟩ := q
    cases qt <;> simp_all [verify_hypothesis, queryFails]
  refine ⟨hmain, ?_, ?_, ?_, ?_⟩ <;>
    simp [hmain, GroundedResult.unverified, ConfidenceScore.zero]

/-- A trivial scoring policy for artifacts, used only by witnesses. -/
def ccTrivial : Artifact → Graph → ConfidenceScore := fun _ _ => ConfidenceScore.zero

/-- A trivial scoring policy for paths, used only by witnesses. -/
def cpcTrivial : List NodeId → Graph → ConfidenceScore := fun _ _ => ConfidenceScore.zero

/-- Claim C8, witness: a lookup of entity 5 on the empty graph fails
and verify_hypothesis returns the unverified result. -/
theorem c8_witness :
    queryFails Graph.new ⟨QueryType.Lookup 5⟩ ∧
    verify_hypothesis ccTrivial cpcTrivial Graph.new ⟨QueryType.Lookup 5⟩ =
      GroundedResult.unverified :=
  ⟨by rfl,
    (c8_verify_hypothesis_unverified ccTrivial cpcTrivial Graph.new
      ⟨QueryType.Lookup 5⟩ (by rfl)).1⟩

end Kremis

namespace Kremis

/-! ## Claim C7 -/

/-- The fold of Graph::intersect keeps exactly the accumulator elements
that are out-neighbors of every remaining input node. -/
theorem mem_intersect_foldl (g : Graph) (rest : List NodeId) (acc : List NodeId)
    (x : NodeId) :
    (x ∈ rest.foldl
      (fun result node => result.filter (fun n => n ∈ (g.neighbors node).map Prod.fst))
      acc) ↔
    (x ∈ acc ∧ ∀ m ∈ rest, x ∈ (g.neighbors m).map Prod.fst) := by
  induction rest generalizing acc with
  | nil => simp
  | cons m rest ih =>
    simp only [List.foldl_cons, ih, List.mem_filter, decide_eq_true_eq, List.mem_cons]
    constructor
    · rintro ⟨⟨hx, hm⟩, hrest⟩
      exact ⟨hx, fun n hn => by rcases hn with rfl | hn; exact hm; exact hrest n hn⟩
    · rintro ⟨hx, hall⟩
      exact ⟨⟨hx, hall m (Or.inl rfl)⟩, fun n hn => hall n (Or.inr hn)⟩

/-- Claim C7: intersect returns exactly the common immediate
out-neighbors of all input nodes — membership in the result is
equivalent to the input being nonempty and the candidate being an
out-neighbor of every input node — and it returns the empty sequence
for an empty input and whenever some input node has no out-neighbors. -/
theorem c7_intersect_common_neighbors (g : Graph) (nodes : List NodeId) :
    (∀ x : NodeId, x ∈ g.intersect nodes ↔
      (nodes ≠ [] ∧ ∀ m ∈ nodes, x ∈ (g.neighbors m).map Prod.fst)) ∧
    (nodes = [] → g.intersect nodes = []) ∧
    (∀ m ∈ nodes, g.neighbors m = [] → g.intersect nodes = []) := by
  have hmem : ∀ x : NodeId, x ∈ g.intersect nodes ↔
      (nodes ≠ [] ∧ ∀ m ∈ nodes, x ∈ (g.neighbors m).map Prod.fst) := by
    intro x
    cases nodes with
    | nil => simp [Graph.intersect]
    | cons first rest =>
      by_cases hfn : (g.neighbors first).map Prod.fst = []
      · simp only [Graph.intersect, if_pos hfn]
        simp only [List.not_mem_nil, false_iff, not_and, ne_eq]
        intro _ hall
        have := hall first (List.mem_cons_self first rest)
        rw [hfn] at this
        exact absurd this (List.not_mem_nil x)
      · simp only [Graph.intersect, if_neg hfn, mem_intersect_foldl, ne_eq,
          reduceCtorEq, not_false_eq_true, true_and, List.mem_cons]
        constructor
        · rintro ⟨hx, hrest⟩
          exact fun m hm => by rcases hm with rfl | hm; exact hx; exact hrest m hm
        · intro hall
          exact ⟨hall first (Or.inl rfl), fun m hm => hall m (Or.inr hm)⟩
  refine ⟨hmem, ?_, ?_⟩
  · rintro rfl
    simp [Graph.intersect]
  · intro m hm hempty
    rw [List.eq_nil_iff_forall_not_mem]
    intro x hx
    have := ((hmem x).mp hx).2 m hm
    rw [hempty] at this
    simp at this
  
/-- Graph with a common neighbor: nodes 0 and 1 both point to node 2. -/
def commonGraph : Graph :=
  ⟨[(0, ⟨0, 1⟩), (1, ⟨1, 2⟩), (2, ⟨2, 100⟩)],
   [(0, [(2, 1)]), (1, [(2, 1)])],
   [(1, 0), (2, 1), (100, 2)], 3⟩

/-- Claim C7, witness: intersect of the empty input is empty, and node
2 — the common out-neighbor of nodes 0 and 1 of commonGraph — is in
intersect [0, 1]. -/
theorem c7_witness :
    commonGraph.intersect [] = [] ∧ 2 ∈ commonGraph.intersect [0, 1] :=
  ⟨(c7_intersect_common_neighbors commonGraph []).2.1 rfl,
   ((c7_intersect_common_neighbors commonGraph [0, 1]).1 2).mpr
     ⟨by decide, by decide⟩⟩

end Kremis

namespace Kremis

variable {K : Type} {V : Type}

/-! ## Claim C10 -/

theorem evict_hits [LinearOrder K] (c : LruCache K V) : c.evict.hits = c.hits := by
  unfold LruCache.evict
  split <;> rfl

theorem evict_misses [LinearOrder K] (c : LruCache K V) : c.evict.misses = c.misses := by
  unfold LruCache.evict
  split <;> rfl

theorem insert_hits [LinearOrder K] (c : LruCache K V) (k : K) (v : V) :
    (c.insert k v).hits = c.hits := by
  unfold LruCache.insert
  dsimp only
  split
  · exact evict_hits c
  · rfl

theorem insert_misses [LinearOrder K] (c : LruCache K V) (k : K) (v : V) :
    (c.insert k v).misses = c.misses := by
  unfold LruCache.insert
  dsimp only
  split
  · exact evict_misses c
  · rfl

/-- Every cache state reachable through the public operations keeps its
hit and miss counters within u64 range (they are only ever moved by
saturating additions from 0). -/
theorem reached_counters_le [LinearOrder K] {c : LruCache K V} (h : c.Reached) :
    c.hits ≤ U64MAX ∧ c.misses ≤ U64MAX := by
  induction h with
  | new n => exact ⟨Nat.zero_le _, Nat.zero_le _⟩
  | with_batch c b hc ih => exact ih
  | ins c k v hc ih => rw [insert_hits, insert_misses]; exact ih
  | got c k hc ih =>
    unfold LruCache.get
    cases getA k c.entries <;>
      simp only [satAddU64] <;>
      exact ⟨le_trans (by first | exact ih.1 | exact min_le_right _ _) (le_refl _),
        le_trans (by first | exact ih.2 | exact min_le_right _ _) (le_refl _)⟩
  | rem c k hc ih => exact ih
  | clr c hc ih => exact ih

/-- With u64-bounded hit count, the saturated percentage quotient never
exceeds 100: either the product does not saturate and hits ≤ total
bounds the quotient, or it saturates and total ≥ hits > U64MAX / 100
bounds it. -/
theorem sat_ratio_le_100 (h m : Nat) (hh : h ≤ U64MAX)
    (hT : satAddU64 h m ≠ 0) : satMulU64 h 100 / satAddU64 h m ≤ 100 := by
  set T := satAddU64 h m with hTdef
  have hTpos : 0 < T := Nat.pos_of_ne_zero hT
  have hhT : h ≤ T := le_min (Nat.le_add_right h m) hh
  by_cases hm : h * 100 ≤ U64MAX
  · have : satMulU64 h 100 = h * 100 := min_eq_left hm
    rw [this]
    calc h * 100 / T ≤ T * 100 / T :=
          Nat.div_le_div_right (Nat.mul_le_mul_right 100 hhT)
      _ = 100 := Nat.mul_div_cancel_left 100 hTpos
  · have hlt : U64MAX < h * 100 := lt_of_not_ge hm
    have : satMulU64 h 100 = U64MAX := min_eq_right (le_of_lt hlt)
    rw [this]
    have hpos : 0 < h := by
      rcases Nat.eq_zero_or_pos h with h0 | h0
      · rw [h0] at hlt; simp [U64MAX] at hlt
      · exact h0
    have h101 : U64MAX < 101 * h := by
      have h1 : h * 100 ≤ 101 * h := by nlinarith
      exact lt_of_lt_of_le hlt h1
    have hdivh : U64MAX / h < 101 := (Nat.div_lt_iff_lt_mul hpos).mpr h101
    calc U64MAX / T ≤ U64MAX / h := Nat.div_le_div_left hhT hpos
      _ ≤ 100 := Nat.lt_succ_iff.mp hdivh

/-- Claim C10: for every reachable cache state the hit rate is between
0 and 100 inclusive, it is 0 when there have been no accesses, and the
u8 cast in the source never truncates: the modulo-256 reduction leaves
the quotient unchanged. -/
theorem c10_hit_rate_percent_bounded [LinearOrder K] (c : LruCache K V)
    (h : c.Reached) :
    c.hit_rate_percent ≤ 100 ∧
    (satAddU64 c.hits c.misses = 0 → c.hit_rate_percent = 0) ∧
    c.hit_rate_percent =
      (if satAddU64 c.hits c.misses = 0 then 0
       else satMulU64 c.hits 100 / satAddU64 c.hits c.misses) := by
  have hh := (reached_counters_le h).1
  unfold LruCache.hit_rate_percent
  by_cases hT : satAddU64 c.hits c.misses = 0
  · simp [hT]
  · have hle := sat_ratio_le_100 c.hits c.misses hh hT
    have hmod : satMulU64 c.hits 100 / satAddU64 c.hits c.misses % 256 =
        satMulU64 c.hits 100 / satAddU64 c.hits c.misses :=
      Nat.mod_eq_of_lt (lt_of_le_of_lt hle (by norm_num))
    simp only [hT, if_false]
    exact ⟨by rw [hmod]; exact hle, fun hcon => hcon.elim, by rw [hmod]⟩

/-- Claim C10, witness: the cache reached by new 10, insert 1 2, get 1
has one hit and no miss; the theorem applies and its hit rate is
100 ≤ 100. -/
theorem c10_witness :
    ((((LruCache.new Nat Nat 10).insert 1 2).get 1).2).hit_rate_percent ≤ 100 :=
  (c10_hit_rate_percent_bounded ((((LruCache.new Nat Nat 10).insert 1 2).get 1).2)
    (LruCache.Reached.got _ 1 (LruCache.Reached.ins _ 1 2
      (LruCache.Reached.new 10)))).1

end Kremis

namespace Kremis

/-! ## Claim C2 -/

/-- Consecutive nodes of the list are all joined by edges of the graph. -/
def chainOk (g : Graph) : List NodeId → Bool
  | x :: y :: rest => (g.get_edge x y).isSome && chainOk g (y :: rest)
  | _ => true

/-- The list is a directed path from `s` to `e` in `g`: nonempty,
starting at `s`, ending at `e`, with every consecutive pair an edge. -/
def isPathB (g : Graph) (s e : NodeId) (p : List NodeId) : Bool :=
  !p.isEmpty && p.head? == some s && p.getLast? == some e && chainOk g p

/-- Total edge weight collected along the consecutive pairs of the list. -/
def pathWeight (g : Graph) : List NodeId → Int
  | x :: y :: rest => ((g.get_edge x y).getD 0) + pathWeight g (y :: rest)
  | _ => 0

/-- Claim C2, counterexample: in diamondGraph (edges 0→1 weight 10,
1→2 weight 10, 0→2 weight 1), both endpoints exist, yet strongest_path
0 2 returns the direct path [0, 2] of total weight 1 while [0, 1, 2] is
a path of total weight 20 — the returned path does not have maximal
total weight.  The reason is the saturating cost accumulation: both
hops of [0, 1, 2] cost close to i64::MAX, so their sum saturates at
i64::MAX, above the single-hop cost i64::MAX - 1 of the weight-1 edge. -/
theorem c2_counterexample :
    diamondGraph.contains_node 0 = true ∧
    diamondGraph.contains_node 2 = true ∧
    diamondGraph.strongest_path 0 2 = some [0, 2] ∧
    isPathB diamondGraph 0 2 [0, 2] = true ∧
    isPathB diamondGraph 0 2 [0, 1, 2] = true ∧
    pathWeight diamondGraph [0, 2] = 1 ∧
    pathWeight diamondGraph [0, 1, 2] = 20 ∧
    ¬ pathWeight diamondGraph [0, 1, 2] ≤ pathWeight diamondGraph [0, 2] := by
  decide

/-- Claim C2 as amended: strongest_path runs Dijkstra with edge cost
i64::MAX - max(weight, 0) under i64 saturating addition; because the
accumulated cost of any multi-edge path saturates at i64::MAX, the
search can prefer a path with fewer edges over one with strictly larger
total weight, so the result is not in general a maximum-total-weight
path (diamondGraph above).  On the chain 0→1 (weight 10), 1→2 (weight
10) it returns [0, 1, 2], which is a path from 0 to 2 as the
concrete example states. -/
theorem c2_amended_strongest_path_behavior :
    chainGraph.strongest_path 0 2 = some [0, 1, 2] ∧
    isPathB chainGraph 0 2 [0, 1, 2] = true ∧
    pathWeight chainGraph [0, 1, 2] = 20 ∧
    diamondGraph.strongest_path 0 2 = some [0, 2] := by
  decide

end Kremis

namespace Kremis

/-! ## Claim C6 -/

/-- Reachability from `s` using only edges of weight at least `minw`:
the reflexive-transitive closure of the thresholded neighbor relation. -/
inductive FReach (g : Graph) (minw : EdgeWeight) (s : NodeId) : NodeId → Prop
  | refl : FReach g minw s s
  | step {u v : NodeId} {w : EdgeWeight} : FReach g minw s u →
      (v, w) ∈ g.neighbors u → minw ≤ w → FReach g minw s v

/-- An edge record the filtered traversal is allowed to emit: its
weight clears the threshold, it is a real adjacency entry of its
source, and both endpoints are threshold-reachable from `start`. -/
def GoodEdge (g : Graph) (minw : EdgeWeight) (start : NodeId)
    (e : NodeId × NodeId × EdgeWeight) : Prop :=
  minw ≤ e.2.2 ∧ (e.2.1, e.2.2) ∈ g.neighbors e.1 ∧
    FReach g minw start e.1 ∧ FReach g minw start e.2.1

/-- The neighbor loop of the filtered BFS preserves the queue and
subgraph invariants: every queued node and every recorded edge endpoint
stays threshold-reachable, and every recorded edge clears the
threshold. -/
theorem stepFiltered_invariant (g : Graph) (minw : EdgeWeight) (start current : NodeId)
    (cd : Nat) (hcur : FReach g minw start current) :
    ∀ (l : List (NodeId × EdgeWeight)) (queue : List (NodeId × Nat))
      (visited : List NodeId) (subgraph : List (NodeId × NodeId × EdgeWeight)),
    (∀ p ∈ l, p ∈ g.neighbors current) →
    (∀ p ∈ queue, FReach g minw start p.1) →
    (∀ e ∈ subgraph, GoodEdge g minw start e) →
    (∀ p ∈ (stepFiltered minw current cd l queue visited subgraph).1,
      FReach g minw start p.1) ∧
    (∀ e ∈ (stepFiltered minw current cd l queue visited subgraph).2.2,
      GoodEdge g minw start e) := by
  intro l
  induction l with
  | nil => intro queue visited subgraph _ hq hs; exact ⟨hq, hs⟩
  | cons hd tl ih =>
    intro queue visited subgraph hl hq hs
    obtain ⟨nb, w⟩ := hd
    have hnb : (nb, w) ∈ g.neighbors current := hl (nb, w) (List.mem_cons_self _ _)
    have hl2 : ∀ p ∈ tl, p ∈ g.neighbors current :=
      fun p hp => hl p (List.mem_cons_of_mem _ hp)
    by_cases hw : minw ≤ w
    · have hs2 : ∀ e ∈ subgraph ++ [(current, nb, w)], GoodEdge g minw start e := by
        intro e he
        rcases List.mem_append.mp he with he | he
        · exact hs e he
        · rcases List.mem_singleton.mp he with rfl
          exact ⟨hw, hnb, hcur, FReach.step hcur hnb hw⟩
      by_cases hv : nb ∈ visited
      · simp only [stepFiltered, if_pos hw, if_pos hv]
        exact ih queue visited (subgraph ++ [(current, nb, w)]) hl2 hq hs2
      · simp only [stepFiltered, if_pos hw, if_neg hv]
        refine ih (queue ++ [(nb, cd + 1)]) (nb :: visited)
          (subgraph ++ [(current, nb, w)]) hl2 ?_ hs2
        intro p hp
        rcases List.mem_append.mp hp with hp | hp
        · exact hq p hp
        · rcases List.mem_singleton.mp hp with rfl
          exact FReach.step hcur hnb hw
    · simp only [stepFiltered, if_neg hw]
      exact ih queue visited subgraph hl2 hq hs

/-- The filtered BFS loop only ever emits threshold-reachable path
nodes and good edges, for any fuel. -/
theorem bfsFilteredLoop_invariant (g : Graph) (minw : EdgeWeight) (start : NodeId)
    (depth : Nat) (fuel : Nat) :
    ∀ (queue : List (NodeId × Nat)) (visited : List NodeId)
      (path : List NodeId) (subgraph : List (NodeId × NodeId × EdgeWeight)),
    (∀ p ∈ queue, FReach g minw start p.1) →
    (∀ n ∈ path, FReach g minw start n) →
    (∀ e ∈ subgraph, GoodEdge g minw start e) →
    (∀ n ∈ (bfsFilteredLoop g minw depth fuel queue visited path subgraph).1,
      FReach g minw start n) ∧
    (∀ e ∈ (bfsFilteredLoop g minw depth fuel queue visited path subgraph).2,
      GoodEdge g minw start e) := by
  induction fuel with
  | zero => intro queue visited path subgraph hq hp hs; exact ⟨hp, hs⟩
  | succ fuel ih =>
    intro queue visited path subgraph hq hp hs
    cases queue with
    | nil => exact ⟨hp, hs⟩
    | cons hd rest =>
      obtain ⟨current, cd⟩ := hd
      have hcur : FReach g minw start current := hq (current, cd) (List.mem_cons_self _ _)
      have hrest : ∀ p ∈ rest, FReach g minw start p.1 :=
        fun p hp2 => hq p (List.mem_cons_of_mem _ hp2)
      have hp2 : ∀ n ∈ path ++ [current], FReach g minw start n := by
        intro n hn
        rcases List.mem_append.mp hn with hn | hn
        · exact hp n hn
        · rcases List.mem_singleton.mp hn with rfl
          exact hcur
      by_cases hd2 : depth ≤ cd
      · simp only [bfsFilteredLoop, if_pos hd2]
        exact ih rest visited (path ++ [current]) subgraph hrest hp2 hs
      · simp only [bfsFilteredLoop, if_neg hd2]
        rcases hstep : stepFiltered minw current cd (g.neighbors current)
            rest visited subgraph with ⟨q2, v2, s2⟩
        have hinv := stepFiltered_invariant g minw start current cd hcur
          (g.neighbors current) rest visited subgraph (fun p hp3 => hp3)
          hrest hs
        rw [hstep] at hinv
        exact ih q2 v2 (path ++ [current]) s2 hinv.1 hp2 hinv.2

/-- Claim C6: every edge recorded in the subgraph of traverse_filtered
has weight at least min_weight and is a real adjacency entry, every
node of the returned path and every endpoint of a recorded edge is
reachable from start through edges of weight at least min_weight, and
consequently a node reachable only through sub-threshold edges (that
is, not threshold-reachable) appears in neither the path nor the
subgraph. -/
theorem c6_traverse_filtered_threshold (g : Graph) (start : NodeId) (depth : Nat)
    (minw : EdgeWeight) (a : Artifact)
    (h : g.traverse_filtered start depth minw = some a) :
    (∀ e ∈ a.subgraph, minw ≤ e.2.2 ∧ (e.2.1, e.2.2) ∈ g.neighbors e.1 ∧
      FReach g minw start e.1 ∧ FReach g minw start e.2.1) ∧
    (∀ n ∈ a.path, FReach g minw start n) ∧
    (∀ n : NodeId, ¬ FReach g minw start n →
      n ∉ a.path ∧ ∀ e ∈ a.subgraph, e.1 ≠ n ∧ e.2.1 ≠ n) := by
  unfold Graph.traverse_filtered at h
  by_cases hc : g.contains_node start
  · simp only [hc, Bool.not_true, Bool.false_eq_true, if_false] at h
    rcases hloop : bfsFilteredLoop g minw (min depth MAX_TRAVERSAL_DEPTH)
        (g.edgeEntryCount + 2) [(start, 0)] [start] [] [] with ⟨path, subgraph⟩
    rw [hloop] at h
    have ha : a = Artifact.with_subgraph path subgraph := by
      cases h
      rfl
    have hinv := bfsFilteredLoop_invariant g minw start (min depth MAX_TRAVERSAL_DEPTH)
      (g.edgeEntryCount + 2) [(start, 0)] [start] [] []
      (by intro p hp; rcases List.mem_singleton.mp hp with rfl; exact FReach.refl)
      (by intro n hn; exact absurd hn (List.not_mem_nil n))
      (by intro e he; exact absurd he (List.not_mem_nil e))
    rw [hloop] at hinv
    subst ha
    refine ⟨hinv.2, hinv.1, ?_⟩
    intro n hnr
    constructor
    · intro hn
      exact hnr (hinv.1 n hn)
    · intro e he
      have hgood := hinv.2 e he
      constructor
      · intro heq
        exact hnr (heq ▸ hgood.2.2.1)
      · intro heq
        exact hnr (heq ▸ hgood.2.2.2)
  · simp only [hc, Bool.not_false, if_true] at h
    cases h

/-- Claim C6, witness: the theorem applied to the filtered traversal of
chainGraph from node 0 with threshold 11 — both edges are below the
threshold, and indeed node 2 (reachable only through them) is absent
from the result. -/
theorem c6_witness :
    chainGraph.traverse_filtered 0 5 11 = some (Artifact.with_subgraph [0] []) ∧
    (2 : NodeId) ∉ (Artifact.with_subgraph [0] []).path := by
  have hone : ∀ n, FReach chainGraph 11 0 n → n = 0 := by
    intro n hr
    induction hr with
    | refl => rfl
    | step hu hmem hw ih =>
      subst ih
      rename_i v w
      have hm2 : (v, w) ∈ [((1 : NodeId), (10 : EdgeWeight))] := by
        simpa [chainGraph, Graph.neighbors, getA] using hmem
      have heq := List.mem_singleton.mp hm2
      simp only [Prod.mk.injEq] at heq
      rw [heq.2] at hw
      norm_num at hw
  have hnr : ¬ FReach chainGraph 11 0 2 := by
    intro hr
    have := hone 2 hr
    norm_num at this
  exact ⟨by decide,
    ((c6_traverse_filtered_threshold chainGraph 0 5 11 (Artifact.with_subgraph [0] [])
      (by decide)).2.2 2 hnr).1⟩

end Kremis


namespace Kremis

variable {K : Type} {V : Type}

/-! ## Claim C3: the eviction order

The by_access grouping of LruCache::evict is characterized here: walked
group by group (ascending last_access) and within a group in push
order, it enumerates exactly the (last_access, key) pairs of the
entries, in strictly ascending lexicographic order whenever the entry
keys are strictly ascending. -/

/-- The (last_access, key) pair of every entry, in entry order. -/
def entryPairs (entries : List (K × CacheEntry V)) : List (Nat × K) :=
  entries.map (fun p => (p.2.last_access, p.1))

/-- The (time, key) pairs enumerated by walking the by_access groups. -/
def groupPairs (bya : List (Nat × List K)) : List (Nat × K) :=
  (bya.map (fun q => q.2.map (fun k => (q.1, k)))).flatten

/-- Strict lexicographic order on (last_access, key) pairs. -/
def lexLT [LT K] (a b : Nat × K) : Prop :=
  a.1 < b.1 ∨ (a.1 = b.1 ∧ a.2 < b.2)

/-- Invariant of the by_access accumulator: group times strictly
ascending, and keys within each group strictly ascending. -/
def ByAccessInv [LT K] (bya : List (Nat × List K)) : Prop :=
  List.Pairwise (fun a b => a < b) (bya.map Prod.fst) ∧
  ∀ q ∈ bya, List.Pairwise (fun a b : K => a < b) q.2

theorem groupPairs_cons (t2 : Nat) (ks : List K) (rest : List (Nat × List K)) :
    groupPairs ((t2, ks) :: rest) =
      ks.map (fun x => (t2, x)) ++ groupPairs rest := by
  simp [groupPairs]

theorem pushGroup_cons_lt [LinearOrder K] {t t2 : Nat} (k : K) {ks : List K}
    {rest : List (Nat × List K)} (h : t < t2) :
    pushGroup t k ((t2, ks) :: rest) = (t, [k]) :: (t2, ks) :: rest := by
  simp [pushGroup, h]

theorem pushGroup_cons_eq [LinearOrder K] {t : Nat} (k : K) {ks : List K}
    {rest : List (Nat × List K)} :
    pushGroup t k ((t, ks) :: rest) = (t, ks ++ [k]) :: rest := by
  simp [pushGroup]

theorem pushGroup_cons_gt [LinearOrder K] {t t2 : Nat} (k : K) {ks : List K}
    {rest : List (Nat × List K)} (h1 : ¬ t < t2) (h2 : t ≠ t2) :
    pushGroup t k ((t2, ks) :: rest) = (t2, ks) :: pushGroup t k rest := by
  simp [pushGroup, h1, h2]

theorem groupPairs_pushGroup_perm [LinearOrder K] (t : Nat) (k : K)
    (bya : List (Nat × List K)) :
    (groupPairs (pushGroup t k bya)).Perm ((t, k) :: groupPairs bya) := by
  induction bya with
  | nil => simp [pushGroup, groupPairs]
  | cons hd rest ih =>
    obtain ⟨t2, ks⟩ := hd
    by_cases h1 : t < t2
    · rw [pushGroup_cons_lt k h1, groupPairs_cons t [k]]
      simp
    · by_cases h2 : t = t2
      · subst h2
        rw [pushGroup_cons_eq k, groupPairs_cons, groupPairs_cons, List.map_append]
        have hmid : (List.map (fun x => (t, x)) ks ++ (t, k) :: groupPairs rest).Perm
            ((t, k) :: (List.map (fun x => (t, x)) ks ++ groupPairs rest)) :=
          List.perm_middle
        simp only [List.map_append, List.map_cons, List.map_nil, List.append_assoc,
          List.singleton_append]
        exact hmid
      · rw [pushGroup_cons_gt k h1 h2, groupPairs_cons, groupPairs_cons]
        exact List.Perm.trans (List.Perm.append_left _ ih) List.perm_middle

theorem mem_map_fst_pushGroup [LinearOrder K] (t : Nat) (k : K)
    (bya : List (Nat × List K)) (x : Nat)
    (hx : x ∈ (pushGroup t k bya).map Prod.fst) :
    x = t ∨ x ∈ bya.map Prod.fst := by
  induction bya with
  | nil => simpa [pushGroup] using hx
  | cons hd rest ih =>
    obtain ⟨t2, ks⟩ := hd
    by_cases h1 : t < t2
    · rw [pushGroup_cons_lt k h1] at hx
      simp only [List.map_cons, List.mem_cons] at hx
      rcases hx with rfl | hx
      · exact Or.inl rfl
      · exact Or.inr (by simpa using hx)
    · by_cases h2 : t = t2
      · subst h2
        rw [pushGroup_cons_eq k] at hx
        simp only [List.map_cons, List.mem_cons] at hx
        exact Or.inr (by simpa using hx)
      · rw [pushGroup_cons_gt k h1 h2] at hx
        simp only [List.map_cons, List.mem_cons] at hx
        rcases hx with rfl | hx
        · exact Or.inr (by simp)
        · rcases ih hx with rfl | hx2
          · exact Or.inl rfl
          · exact Or.inr (by simp [hx2])

theorem fst_mem_of_mem_groupPairs (bya : List (Nat × List K)) (p : Nat × K)
    (hp : p ∈ groupPairs bya) : p.1 ∈ bya.map Prod.fst := by
  induction bya with
  | nil => simp [groupPairs] at hp
  | cons hd rest ih =>
    obtain ⟨t2, ks⟩ := hd
    rw [groupPairs_cons] at hp
    rcases List.mem_append.mp hp with hp | hp
    · rcases List.mem_map.mp hp with ⟨x, _, rfl⟩
      simp
    · simpa using Or.inr (ih hp)

theorem byAccessInv_pushGroup [LinearOrder K] (t : Nat) (k : K)
    (bya : List (Nat × List K)) (hinv : ByAccessInv bya)
    (hk : ∀ q ∈ groupPairs bya, q.2 < k) :
    ByAccessInv (pushGroup t k bya) := by
  induction bya with
  | nil =>
    refine ⟨by simp [pushGroup], ?_⟩
    intro q hq
    rcases List.mem_singleton.mp (by simpa [pushGroup] using hq) with rfl
    simp
  | cons hd rest ih =>
    obtain ⟨t2, ks⟩ := hd
    obtain ⟨htimes, hgroups⟩ := hinv
    have htimesc : List.Pairwise (fun a b : Nat => a < b) (t2 :: rest.map Prod.fst) := by
      simpa using htimes
    have htimes2 := List.pairwise_cons.mp htimesc
    by_cases h1 : t < t2
    · refine ⟨?_, ?_⟩
      · rw [pushGroup_cons_lt k h1]
        simp only [List.map_cons]
        rw [List.pairwise_cons]
        refine ⟨?_, htimesc⟩
        intro x hx
        simp only [List.mem_cons] at hx
        rcases hx with rfl | hx
        · exact h1
        · exact lt_trans h1 (htimes2.1 x hx)
      · intro q hq
        rw [pushGroup_cons_lt k h1] at hq
        rcases List.mem_cons.mp hq with rfl | hq
        · simp
        · exact hgroups q hq
    · by_cases h2 : t = t2
      · subst h2
        refine ⟨?_, ?_⟩
        · rw [pushGroup_cons_eq k]
          simpa using htimesc
        · intro q hq
          rw [pushGroup_cons_eq k] at hq
          rcases List.mem_cons.mp hq with rfl | hq
          · rw [List.pairwise_append]
            refine ⟨hgroups (t, ks) (List.mem_cons_self _ _), by simp, ?_⟩
            intro a ha b hb
            rcases List.mem_singleton.mp hb with rfl
            exact hk (t, a) (by
              rw [groupPairs_cons]
              exact List.mem_append.mpr (Or.inl (List.mem_map.mpr ⟨a, ha, rfl⟩)))
          · exact hgroups q (List.mem_cons_of_mem _ hq)
      · have ht2t : t2 < t := lt_of_le_of_ne (le_of_not_lt h1) (Ne.symm h2)
        have hinvrest : ByAccessInv rest :=
          ⟨htimes2.2, fun q hq => hgroups q (List.mem_cons_of_mem _ hq)⟩
        have hkrest : ∀ q ∈ groupPairs rest, q.2 < k := by
          intro q hq
          exact hk q (by
            rw [groupPairs_cons]
            exact List.mem_append.mpr (Or.inr hq))
        have ihrest := ih hinvrest hkrest
        refine ⟨?_, ?_⟩
        · rw [pushGroup_cons_gt k h1 h2]
          simp only [List.map_cons]
          rw [List.pairwise_cons]
          refine ⟨?_, ihrest.1⟩
          intro x hx
          rcases mem_map_fst_pushGroup t k rest x hx with rfl | hx2
          · exact ht2t
          · exact htimes2.1 x hx2
        · intro q hq
          rw [pushGroup_cons_gt k h1 h2] at hq
          rcases List.mem_cons.mp hq with rfl | hq
          · exact hgroups (t2, ks) (List.mem_cons_self _ _)
          · exact ihrest.2 q hq

theorem pairwise_lexLT_groupPairs [LinearOrder K] (bya : List (Nat × List K))
    (hinv : ByAccessInv bya) : List.Pairwise lexLT (groupPairs bya) := by
  induction bya with
  | nil => simp [groupPairs]
  | cons hd rest ih =>
    obtain ⟨t2, ks⟩ := hd
    obtain ⟨htimes, hgroups⟩ := hinv
    have htimesc : List.Pairwise (fun a b : Nat => a < b) (t2 :: rest.map Prod.fst) := by
      simpa using htimes
    have htimes2 := List.pairwise_cons.mp htimesc
    rw [groupPairs_cons, List.pairwise_append]
    refine ⟨?_, ih ⟨htimes2.2, fun q hq => hgroups q (List.mem_cons_of_mem _ hq)⟩, ?_⟩
    · rw [List.pairwise_map]
      exact (hgroups (t2, ks) (List.mem_cons_self _ _)).imp
        (fun h => Or.inr ⟨rfl, h⟩)
    · intro a ha b hb
      rcases List.mem_map.mp ha with ⟨x, _, rfl⟩
      exact Or.inl (htimes2.1 b.1 (fst_mem_of_mem_groupPairs rest b hb))

end Kremis

namespace Kremis

variable {K : Type} {V : Type}

/-- Folding entries with strictly ascending keys into the by_access map
preserves the group invariant and enumerates exactly the entry pairs. -/
theorem buildByAccess_fold [LinearOrder K] (l : List (K × CacheEntry V)) :
    ∀ bya : List (Nat × List K), ByAccessInv bya →
    (∀ p ∈ l, ∀ q ∈ groupPairs bya, q.2 < p.1) →
    List.Pairwise (fun a b : K × CacheEntry V => a.1 < b.1) l →
    ByAccessInv (l.foldl (fun acc p => pushGroup p.2.last_access p.1 acc) bya) ∧
    (groupPairs (l.foldl (fun acc p => pushGroup p.2.last_access p.1 acc) bya)).Perm
      (groupPairs bya ++ entryPairs l) := by
  induction l with
  | nil =>
    intro bya hinv _ _
    exact ⟨hinv, by simp [entryPairs]⟩
  | cons p rest ih =>
    intro bya hinv hfuture hsorted
    obtain ⟨hhead, htail⟩ := List.pairwise_cons.mp hsorted
    have hinv2 : ByAccessInv (pushGroup p.2.last_access p.1 bya) :=
      byAccessInv_pushGroup _ _ bya hinv
        (fun q hq => hfuture p (List.mem_cons_self _ _) q hq)
    have hfut2 : ∀ x ∈ rest, ∀ q ∈ groupPairs (pushGroup p.2.last_access p.1 bya),
        q.2 < x.1 := by
      intro x hx q hq
      have hq2 := (groupPairs_pushGroup_perm p.2.last_access p.1 bya).mem_iff.mp hq
      rcases List.mem_cons.mp hq2 with rfl | hq3
      · exact hhead x hx
      · exact hfuture x (List.mem_cons_of_mem _ hx) q hq3
    have ihres := ih (pushGroup p.2.last_access p.1 bya) hinv2 hfut2 htail
    refine ⟨ihres.1, ?_⟩
    have h2 : (groupPairs (pushGroup p.2.last_access p.1 bya) ++ entryPairs rest).Perm
        (((p.2.last_access, p.1) :: groupPairs bya) ++ entryPairs rest) :=
      (groupPairs_pushGroup_perm _ _ bya).append_right _
    have h3 : (((p.2.last_access, p.1) :: groupPairs bya) ++ entryPairs rest).Perm
        (groupPairs bya ++ (p.2.last_access, p.1) :: entryPairs rest) :=
      List.perm_middle.symm
    have hep : entryPairs (p :: rest) = (p.2.last_access, p.1) :: entryPairs rest := rfl
    rw [List.foldl_cons, hep]
    exact (ihres.2.trans h2).trans h3

/-- The by_access map of sorted entries satisfies the invariant and its
pairs are a permutation of the entry pairs. -/
theorem buildByAccess_spec [LinearOrder K] (entries : List (K × CacheEntry V))
    (hs : SortedKeys entries) :
    ByAccessInv (buildByAccess entries) ∧
    (groupPairs (buildByAccess entries)).Perm (entryPairs entries) := by
  have hsorted : List.Pairwise (fun a b : K × CacheEntry V => a.1 < b.1) entries := by
    rw [SortedKeys, keysOf, List.pairwise_map] at hs
    exact hs
  have h := buildByAccess_fold entries [] ⟨by simp, by simp⟩ (by simp [groupPairs]) hsorted
  exact ⟨h.1, by simpa [groupPairs] using h.2⟩

/-- The key order walked by evict is the second projection of the
by_access pair enumeration. -/
theorem evictionOrder_eq_map_snd [LinearOrder K] (entries : List (K × CacheEntry V)) :
    evictionOrder entries = (groupPairs (buildByAccess entries)).map Prod.snd := by
  unfold evictionOrder groupPairs
  generalize buildByAccess entries = bya
  induction bya with
  | nil => simp
  | cons hd rest ih => simp [ih, List.map_map, Function.comp]

/-- The eviction order is a permutation of the entry keys. -/
theorem evictionOrder_perm [LinearOrder K] (entries : List (K × CacheEntry V))
    (hs : SortedKeys entries) : (evictionOrder entries).Perm (keysOf entries) := by
  rw [evictionOrder_eq_map_snd]
  have h := (buildByAccess_spec entries hs).2.map Prod.snd
  simpa [entryPairs, keysOf, List.map_map, Function.comp] using h

end Kremis

namespace Kremis

variable {K : Type} {V : Type}

/-- On a duplicate-free association list, removing a key is filtering
it out. -/
theorem removeA_eq_filter [DecidableEq K] (k : K) (l : List (K × V))
    (hnd : (keysOf l).Nodup) :
    removeA k l = l.filter (fun p => p.1 ≠ k) := by
  induction l with
  | nil => simp [removeA]
  | cons hd rest ih =>
    obtain ⟨k2, v⟩ := hd
    have hnd2 : (keysOf rest).Nodup ∧ k2 ∉ keysOf rest := by
      simp only [keysOf, List.map_cons, List.nodup_cons] at hnd
      exact ⟨hnd.2, hnd.1⟩
    by_cases h : k = k2
    · subst h
      have h1 : removeA k ((k, v) :: rest) = rest := by simp [removeA]
      have h2 : List.filter (fun p : K × V => ! decide (p.1 = k)) rest = rest := by
        rw [List.filter_eq_self]
        intro p hp
        have hne : p.1 ≠ k := fun heq => hnd2.2 (heq ▸ List.mem_map.mpr ⟨p, hp, rfl⟩)
        simp [hne]
      rw [h1, List.filter_cons]
      simp [h2]
    · simp only [removeA, if_neg h, List.filter_cons]
      have hpred : (decide ((k2, v).1 ≠ k)) = true := by simp [Ne.symm h]
      rw [hpred]
      simp only [if_true]
      rw [ih hnd2.1]

/-- Removing a batch of keys in turn is filtering them all out. -/
theorem foldl_removeA_eq_filter [DecidableEq K] (ks : List K) (l : List (K × V))
    (hnd : (keysOf l).Nodup) :
    ks.foldl (fun es k => removeA k es) l = l.filter (fun p => p.1 ∉ ks) := by
  induction ks generalizing l with
  | nil => simp
  | cons k ks ih =>
    rw [List.foldl_cons, removeA_eq_filter k l hnd]
    have hsub : List.Sublist (keysOf (l.filter (fun p => p.1 ≠ k))) (keysOf l) :=
      List.Sublist.map Prod.fst (List.filter_sublist l)
    have hnd2 : (keysOf (l.filter (fun p => p.1 ≠ k))).Nodup :=
      List.Nodup.sublist hsub hnd
    rw [ih _ hnd2, List.filter_filter]
    congr 1
    funext p
    by_cases h1 : p.1 = k <;> by_cases h2 : p.1 ∈ ks <;> simp [h1, h2]

/-- Filtering on a predicate and its negation splits the length. -/
theorem length_filter_add_length_filter_not (l : List (K × V)) (p : K × V → Bool) :
    (l.filter p).length + (l.filter (fun a => ! p a)).length = l.length := by
  induction l with
  | nil => simp
  | cons hd rest ih =>
    cases h : p hd <;> simp [List.filter_cons, h] <;> omega

/-- Keys of a key-predicate filter are the filtered keys. -/
theorem keysOf_filter (l : List (K × V)) (q : K → Bool) :
    keysOf (l.filter (fun p => q p.1)) = (keysOf l).filter q := by
  induction l with
  | nil => simp [keysOf]
  | cons hd rest ih =>
    cases h : q hd.1 <;> simp only [keysOf, List.filter_cons, h, List.map_cons] <;>
      simpa [keysOf] using ih

/-- A duplicate-free list filtered to a duplicate-free subset of its
elements is a permutation of that subset. -/
theorem filter_mem_perm [DecidableEq K] {l ks : List K} (hnd : l.Nodup)
    (hknd : ks.Nodup) (hsub : ∀ k ∈ ks, k ∈ l) :
    (l.filter (fun x => x ∈ ks)).Perm ks := by
  rw [List.perm_iff_count]
  intro a
  by_cases ha : a ∈ ks
  · rw [List.count_filter (by simp [ha]),
      List.count_eq_one_of_mem hnd (hsub a ha), List.count_eq_one_of_mem hknd ha]
  · rw [List.count_eq_zero_of_not_mem ha, List.count_eq_zero_of_not_mem]
    intro hmem
    exact ha (by simpa using (List.mem_filter.mp hmem).2)

/-- Filtering away a duplicate-free batch of present keys removes
exactly batch-many entries. -/
theorem length_filter_not_mem [DecidableEq K] (l : List (K × V)) (ks : List K)
    (hnd : (keysOf l).Nodup) (hknd : ks.Nodup)
    (hsub : ∀ k ∈ ks, k ∈ keysOf l) :
    (l.filter (fun p => p.1 ∉ ks)).length = l.length - ks.length := by
  have hin : (l.filter (fun p => p.1 ∈ ks)).length = ks.length := by
    have h1 : keysOf (l.filter (fun p => p.1 ∈ ks)) =
        (keysOf l).filter (fun x => x ∈ ks) :=
      keysOf_filter l (fun x => x ∈ ks)
    have h2 := filter_mem_perm hnd hknd hsub
    have h3 : (keysOf (l.filter (fun p => p.1 ∈ ks))).length = ks.length := by
      rw [h1]
      exact h2.length_eq
    simpa [keysOf] using h3
  have hsplit := length_filter_add_length_filter_not l (fun p => p.1 ∈ ks)
  have heq : (l.filter (fun a => ! decide (a.1 ∈ ks))) =
      l.filter (fun p => p.1 ∉ ks) := by
    congr 1
    funext p
    simp [decide_not]
  rw [heq] at hsplit
  omega

end Kremis

namespace Kremis

variable {K : Type} {V : Type}

/-- getA misses exactly the keys outside the list. -/
theorem getA_eq_none_iff [DecidableEq K] {k : K} {l : List (K × V)} :
    getA k l = none ↔ k ∉ keysOf l := by
  induction l with
  | nil => simp [getA, keysOf]
  | cons hd rest ih =>
    obtain ⟨k2, v2⟩ := hd
    by_cases hh : k = k2 <;> simp [getA, keysOf, hh, ih]

/-- A key getA finds is among the list keys. -/
theorem mem_keysOf_of_getA_eq_some [DecidableEq K] {k : K} {l : List (K × V)} {v : V}
    (h : getA k l = some v) : k ∈ keysOf l := by
  by_contra hmem
  rw [← @getA_eq_none_iff K V _ k l] at hmem
  rw [hmem] at h
  cases h

/-- Keys of a sorted association list are duplicate-free. -/
theorem sortedKeys_nodup [LinearOrder K] {l : List (K × V)} (hs : SortedKeys l) :
    (keysOf l).Nodup :=
  hs.imp (fun h => ne_of_lt h)

/-- LruCache::evict keeps exactly the entries whose key is not among
the first min(eviction_batch, len) keys of the eviction order. -/
theorem evict_entries_eq_filter [LinearOrder K] (c : LruCache K V)
    (hs : SortedKeys c.entries) :
    c.evict.entries = c.entries.filter
      (fun p => p.1 ∉
        (evictionOrder c.entries).take (min c.eviction_batch c.entries.length)) := by
  unfold LruCache.evict
  by_cases hemp : c.entries.isEmpty
  · rw [if_pos hemp]
    rw [List.isEmpty_iff] at hemp
    rw [hemp]
    simp
  · rw [if_neg hemp]
    exact foldl_removeA_eq_filter _ _ (sortedKeys_nodup hs)

/-- The doomed key batch is duplicate-free, lies among the entry keys,
and has size exactly min(eviction_batch, len). -/
theorem doomed_spec [LinearOrder K] (c : LruCache K V) (hs : SortedKeys c.entries) :
    ((evictionOrder c.entries).take (min c.eviction_batch c.entries.length)).Nodup ∧
    (∀ x ∈ (evictionOrder c.entries).take (min c.eviction_batch c.entries.length),
      x ∈ keysOf c.entries) ∧
    ((evictionOrder c.entries).take (min c.eviction_batch c.entries.length)).length =
      min c.eviction_batch c.entries.length := by
  have hnd := sortedKeys_nodup hs
  have hperm := evictionOrder_perm c.entries hs
  have hordnd : (evictionOrder c.entries).Nodup := hperm.symm.nodup hnd
  refine ⟨List.Nodup.sublist (List.take_sublist _ _) hordnd, ?_, ?_⟩
  · intro x hx
    exact hperm.mem_iff.mp (List.take_subset _ _ hx)
  · rw [List.length_take, hperm.length_eq]
    have hlen : (keysOf c.entries).length = c.entries.length := List.length_map _ _
    rw [hlen]
    exact min_eq_left (min_le_right _ _)

/-- Claim C3: on a full cache (size at least capacity) an insert of a
new key evicts before inserting — the new entry table is the sorted
insert of the fresh entry into the evicted table — and eviction removes
exactly min(eviction_batch, size) entries, all of them original, such
that every removed entry strictly precedes every kept entry in the
(last_access, key) lexicographic order (ascending last_access, ties
broken in ascending key order); an insert of an already-present key
never evicts — the key set is unchanged. -/
theorem c3_insert_eviction [LinearOrder K] (c : LruCache K V) (k : K) (v : V)
    (hs : SortedKeys c.entries) :
    (c.max_size ≤ c.entries.length → getA k c.entries = none →
      ((c.insert k v).entries =
        insertA k (CacheEntry.new v (satAddU64 c.logical_clock 1)) c.evict.entries) ∧
      c.evict.entries.length =
        c.entries.length - min c.eviction_batch c.entries.length ∧
      (∀ q ∈ c.evict.entries, q ∈ c.entries) ∧
      (∀ p ∈ c.entries, p ∉ c.evict.entries → ∀ q ∈ c.evict.entries,
        lexLT (p.2.last_access, p.1) (q.2.last_access, q.1))) ∧
    ((getA k c.entries).isSome = true →
      keysOf (c.insert k v).entries = keysOf c.entries) := by
  have hnd := sortedKeys_nodup hs
  have hfilter := evict_entries_eq_filter c hs
  have hdspec := doomed_spec c hs
  set t := min c.eviction_batch c.entries.length with ht
  set doomed := (evictionOrder c.entries).take t with hdoomed
  constructor
  · intro hfull hnew
    have hkevict : getA k c.evict.entries = none := by
      rw [hfilter, getA_eq_none_iff]
      intro hmem
      rcases List.mem_map.mp hmem with ⟨p, hpf, hpk⟩
      exact (getA_eq_none_iff.mp hnew)
        (hpk ▸ List.mem_map.mpr ⟨p, (List.mem_filter.mp hpf).1, rfl⟩)
    refine ⟨?_, ?_, ?_, ?_⟩
    · unfold LruCache.insert
      have hcond : c.max_size ≤ c.entries.length ∧ (getA k c.entries).isNone := by
        exact ⟨hfull, by simp [hnew]⟩
      rw [if_pos hcond]
      simp [hkevict]
    · rw [hfilter]
      rw [length_filter_not_mem c.entries doomed hnd hdspec.1 hdspec.2.1, hdspec.2.2]
    · rw [hfilter]
      intro q hq
      exact (List.mem_filter.mp hq).1
    · intro p hp hpnot q hq
      rw [hfilter] at hq hpnot
      have hq2 := List.mem_filter.mp hq
      have hqnot : q.1 ∉ doomed := by simpa using hq2.2
      have hpdoomed : p.1 ∈ doomed := by
        by_contra hpd
        exact hpnot (List.mem_filter.mpr ⟨hp, by simpa using hpd⟩)
      have hspec := buildByAccess_spec c.entries hs
      have hpw := pairwise_lexLT_groupPairs _ hspec.1
      have hordEq := evictionOrder_eq_map_snd c.entries
      set op := groupPairs (buildByAccess c.entries) with hop
      have hsndnd : (op.map Prod.snd).Nodup := by
        rw [← hordEq]
        exact (evictionOrder_perm c.entries hs).symm.nodup hnd
      have hpPair : (p.2.last_access, p.1) ∈ op :=
        hspec.2.mem_iff.mpr (List.mem_map.mpr ⟨p, hp, rfl⟩)
      have hqPair : (q.2.last_access, q.1) ∈ op :=
        hspec.2.mem_iff.mpr (List.mem_map.mpr ⟨q, hq2.1, rfl⟩)
      have hdmap : doomed = (op.take t).map Prod.snd := by
        rw [hdoomed, hordEq, List.map_take]
      have hpTake : (p.2.last_access, p.1) ∈ op.take t := by
        rw [hdmap] at hpdoomed
        rcases List.mem_map.mp hpdoomed with ⟨pr, hpr, hpreq⟩
        have hprOp : pr ∈ op := List.take_subset _ _ hpr
        have heq := List.inj_on_of_nodup_map hsndnd hprOp hpPair hpreq
        exact heq ▸ hpr
      have hqDrop : (q.2.last_access, q.1) ∈ op.drop t := by
        rw [← List.take_append_drop t op] at hqPair
        rcases List.mem_append.mp hqPair with hmem | hmem
        · exfalso
          apply hqnot
          rw [hdmap]
          exact List.mem_map.mpr ⟨_, hmem, rfl⟩
        · exact hmem
      have hsplit : List.Pairwise lexLT (op.take t ++ op.drop t) := by
        rw [List.take_append_drop]
        exact hpw
      exact (List.pairwise_append.mp hsplit).2.2 _ hpTake _ hqDrop
  · intro hpresent
    unfold LruCache.insert
    have hcond : ¬ (c.max_size ≤ c.entries.length ∧ (getA k c.entries).isNone) := by
      rintro ⟨_, hnone⟩
      rw [Option.isNone_iff_eq_none] at hnone
      rw [hnone] at hpresent
      cases hpresent
    rw [if_neg hcond]
    rcases Option.isSome_iff_exists.mp hpresent with ⟨e, he⟩
    simp only [he]
    exact keysOf_insertA_of_mem _ _ _ hs (mem_keysOf_of_getA_eq_some he)

end Kremis

namespace Kremis

/-- The cache of the cache_eviction test of the source: capacity 3, eviction
batch 1, keys 1, 2, 3 inserted, then keys 1 and 2 touched by get, so
key 3 is the least recently used. -/
def cacheW : LruCache Nat Nat :=
  (((((((LruCache.new Nat Nat 3).with_eviction_batch 1).insert 1 11).insert 2
    22).insert 3 33).get 1).2.get 2).2

/-- Claim C3, witness: inserting the fresh key 4 into the full cacheW
goes through eviction — the theorem applies with all hypotheses
discharged concretely, and the evicted batch has size
min(eviction_batch, len) = 1, leaving keys 1 and 2 and dropping the
least-recently-used key 3. -/
theorem c3_witness :
    (cacheW.insert 4 44).entries =
      insertA 4 (CacheEntry.new 44 (satAddU64 cacheW.logical_clock 1))
        cacheW.evict.entries ∧
    cacheW.evict.entries.length =
      cacheW.entries.length - min cacheW.eviction_batch cacheW.entries.length ∧
    keysOf (cacheW.insert 4 44).entries = [1, 2, 4] :=
  ⟨((c3_insert_eviction cacheW 4 44 (by unfold SortedKeys; decide)).1 (by decide) (by decide)).1,
   ((c3_insert_eviction cacheW 4 44 (by unfold SortedKeys; decide)).1 (by decide) (by decide)).2.1,
   by decide⟩

end Kremis
